import Mathlib

/-!
Verification development for the s3prl_segperb excerpt.

Two source files are embedded:
* `src/downstream/vcc2018_linear_segment/model.py` — a scoring head
  (`SelfAttentionPooling` and `Model`), embedded over `ℝ` with tensors as
  nested lists; operations that can raise a shape error return `Option`.
* `src/s3prl/corpus/voxceleb1sid.py` — the VoxCeleb1 corpus loader
  (`code2split`, label derivation, split grouping, wav search), embedded
  with python strings as `List Char` (and Lean `String` for the three
  split names).
-/

/-- Elementwise application of a fallible operation to a list; any failure
makes the whole computation fail (this models an exception propagating out
of a loop or a vectorised tensor operation). -/
def mapOption {α β : Type _} (f : α → Option β) : List α → Option (List β)
  | [] => some []
  | x :: xs =>
    match f x, mapOption f xs with
    | some y, some ys => some (y :: ys)
    | _, _ => none

/-- Source `nn.Linear(input_dim, 1)`: a learned weight vector and bias
producing a single scalar per input vector. -/
structure Linear1 where
  weight : List ℝ
  bias : ℝ

/-- Value computed by `nn.Linear(input_dim, 1)` on one vector: dot product
with the weight vector plus the bias. -/
noncomputable def Linear1.applyVal (l : Linear1) (x : List ℝ) : ℝ :=
  (List.zipWith (fun a b => a * b) l.weight x).sum + l.bias

/-- Application of `nn.Linear(input_dim, 1)` to one vector, with the shape
check torch performs: the input's last dimension must equal `input_dim`,
otherwise a shape-mismatch error is raised (modelled as `none`). -/
noncomputable def Linear1.apply (l : Linear1) (x : List ℝ) : Option ℝ :=
  if x.length = l.weight.length then some (l.applyVal x) else none

/-- Mean branch of `Model.forward` restricted to one batch element:
`x = self.linear(features)` projects every frame to a scalar, and
`x.squeeze(-1).mean(dim=-1)` averages those scalars along the sequence
axis. -/
noncomputable def Linear1.meanScore (l : Linear1) (seq : List (List ℝ)) :
    Option ℝ :=
  (mapOption l.apply seq).map (fun row => row.sum / (row.length : ℝ))

/-- Source `nn.functional.softmax` along the last axis of an `(N, T)`
tensor, applied to one row: exponentiate and normalise by the row sum.
Over `ℝ` the max-subtraction stabilisation is an identity, so it is
omitted. -/
noncomputable def softmaxList (xs : List ℝ) : List ℝ :=
  xs.map (fun x => Real.exp x / (xs.map Real.exp).sum)

/-- Source `torch.sum(..., dim=1)` over the sequence axis: sum a list of
`H`-dimensional vectors, starting from the zero vector. -/
noncomputable def vecSum (H : ℕ) (l : List (List ℝ)) : List ℝ :=
  l.foldr (fun v acc => List.zipWith (fun a b => a + b) v acc) (List.replicate H 0)

/-- Source class `SelfAttentionPooling`: holds the learned projection
`self.W = nn.Linear(input_dim, 1)`. -/
structure SelfAttentionPooling where
  W : Linear1

/-- Attention weights of one sequence, source line
`att_w = softmax(self.W(batch_rep).squeeze(-1)).unsqueeze(-1)` restricted
to a single batch element: project every frame to a logit and softmax
along the sequence axis. -/
noncomputable def SelfAttentionPooling.attW (p : SelfAttentionPooling)
    (seq : List (List ℝ)) : Option (List ℝ) :=
  (mapOption p.W.apply seq).map softmaxList

/-- Pooling of one sequence, source line
`utter_rep = torch.sum(batch_rep * att_w, dim=1)` restricted to a single
batch element: scale every frame by its attention weight and sum over the
sequence axis. -/
noncomputable def SelfAttentionPooling.pool (p : SelfAttentionPooling)
    (seq : List (List ℝ)) : Option (List ℝ) :=
  match p.attW seq with
  | none => none
  | some ws =>
    some (vecSum p.W.weight.length
      (List.zipWith (fun w x => x.map (fun v => w * v)) ws seq))

/-- Source `SelfAttentionPooling.forward`: pooling applied independently to
every batch element of an `(N, T, H)` input, returning an `(N, H)` result. -/
noncomputable def SelfAttentionPooling.forward (p : SelfAttentionPooling)
    (batch : List (List (List ℝ))) : Option (List (List ℝ)) :=
  mapOption (p.pool) batch

/-- Result tensor of `Model.forward`: after the trailing `squeeze(-1)` the
output is either a 0-dimensional scalar tensor or a 1-dimensional vector. -/
inductive TOut : Type
  | scalar (x : ℝ) : TOut
  | vector (xs : List ℝ) : TOut

/-- Number of elements of the output tensor (`numel`). -/
def TOut.numel : TOut → ℕ
  | TOut.scalar _ => 1
  | TOut.vector xs => xs.length

/-- Python `len()` of the output tensor: defined for a 1-dimensional
vector, raises (modelled as `none`) on a 0-dimensional scalar. -/
def TOut.pyLen : TOut → Option ℕ
  | TOut.scalar _ => none
  | TOut.vector xs => some xs.length

/-- The scalar values stored in the output tensor, in order. -/
def TOut.vals : TOut → List ℝ
  | TOut.scalar x => [x]
  | TOut.vector xs => xs

/-- Source trailing `segment_score.squeeze(-1)` on a 1-dimensional tensor:
a vector of length exactly 1 collapses to a 0-dimensional scalar, any other
length is left as a vector. -/
def squeezeLast (xs : List ℝ) : TOut :=
  match xs with
  | [x] => TOut.scalar x
  | _ => TOut.vector xs

/-- Source `torch.tanh(segment_score) * 2 + 3`, the optional clipping map. -/
noncomputable def clip (s : ℝ) : ℝ := Real.tanh s * 2 + 3

/-- Source class `Model`: a learned linear map to one scalar, a clipping
flag, and an optional attention-pooling submodule (`None` means mean
pooling). -/
structure Model where
  linear : Linear1
  clipping : Bool
  pooling : Option SelfAttentionPooling

/-- Source `Model.forward`.

Attention branch: `x = self.pooling(features)` of shape `(N, H)`, then
`segment_score = self.linear(x)` of shape `(N, 1)`, optional clipping, and
the trailing `squeeze(-1)` turns `(N, 1)` into `(N,)` — always a vector.

Mean branch: `x = self.linear(features)` of shape `(N, T, 1)`, then
`x.squeeze(-1).mean(dim=-1)` is the per-sequence mean of the frame scores,
of shape `(N,)`; optional clipping; the trailing `squeeze(-1)` on the
1-dimensional `(N,)` tensor collapses it to a 0-dimensional scalar exactly
when `N = 1`. -/
noncomputable def Model.forward (m : Model) (features : List (List (List ℝ))) :
    Option TOut :=
  match m.pooling with
  | some p =>
    match p.forward features with
    | none => none
    | some pooled =>
      match mapOption m.linear.apply pooled with
      | none => none
      | some seg =>
        some (TOut.vector (if m.clipping then seg.map clip else seg))
  | none =>
    match mapOption m.linear.meanScore features with
    | none => none
    | some means =>
      some (squeezeLast (if m.clipping then means.map clip else means))

/-- The list of scalar values returned by `Model.forward`, empty when the
forward call raises. -/
noncomputable def Model.forwardVals (m : Model) (features : List (List (List ℝ))) :
    List ℝ :=
  Option.elim (m.forward features) [] TOut.vals

/-- Python list indexing `l[i]` with an `Int` index: non-negative indices
are used directly, negative indices count from the end, and anything out of
range raises `IndexError` (modelled as `none`). -/
def pythonIdx {α : Type _} (l : List α) (i : ℤ) : Option α :=
  if 0 ≤ i then l.get? i.toNat
  else if 0 ≤ i + l.length then l.get? (i + l.length).toNat
  else none

/-- Source `splits = ["train", "valid", "test"]` inside `code2split`. -/
def splitsList : List String := ["train", "valid", "test"]

/-- Source `code2split` in `VoxCeleb1SID._get_standard_usage`:
`splits[code - 1]` with python list-indexing semantics. -/
def code2split (code : ℤ) : Option String := pythonIdx splitsList (code - 1)

/-- Source `uid.replace("/", "-")`. -/
def replaceSlash (uid : List Char) : List Char :=
  uid.map (fun c => if c = '/' then '-' else c)

/-- Python `pathlib.PurePath(name).stem` on a name with no path separator:
with `i = name.rfind(".")`, return `name[:i]` when `0 < i < len(name) - 1`
and the whole name otherwise. Here `j` is the index of the last dot counted
from the end (`j = len - 1 - i`), obtained from the reversed list. -/
def pathStem (s : List Char) : List Char :=
  let n := s.length
  let j := s.reverse.indexOf '.'
  if j < n then
    let i := n - 1 - j
    if 0 < i ∧ 0 < j then s.take i else s
  else s

/-- Source `Path(uid.replace("/", "-")).stem`, the identifier transform
applied before storing identifiers in `_split2uids` and `_data`. -/
def stemTransform (uid : List Char) : List Char := pathStem (replaceSlash uid)

/-- Source dict comprehension
`{uid: code2split(int(split)) for split, uid in standard_usage}` viewed as
an association list over the manifest's `(uid, code)` pairs; an out-of-range
code raises, failing the whole construction. -/
def mkUid2split (manifest : List (List Char × ℤ)) :
    Option (List (List Char × String)) :=
  mapOption (fun p => (code2split p.2).map (fun s => (p.1, s))) manifest

/-- Source loop in `VoxCeleb1SID.__init__`:
`self._split2uids[split].append(Path(uid.replace("/", "-")).stem)` — the
identifiers of one split, in manifest order, after the stem transform. -/
def split2uids (u2s : List (List Char × String)) (split : String) :
    List (List Char) :=
  (u2s.filter (fun p => p.2 = split)).map (fun p => stemTransform p.1)

/-- Python `int()` restricted to a non-empty all-digit string (the form the
corpus identifiers use); other strings raise `ValueError` here, which
over-approximates python only on exotic forms (signs, whitespace,
underscores) that the label rule never receives. -/
def parseDigits? (cs : List Char) : Option ℕ :=
  if cs ≠ [] ∧ cs.all Char.isDigit then
    some (cs.foldl (fun a c => 10 * a + (c.toNat - 48)) 0)
  else none

/-- Python `int()` including an optional leading sign. -/
def parseInt? (cs : List Char) : Option ℤ :=
  match cs with
  | [] => none
  | c :: rest =>
    if c = '-' then (parseDigits? rest).map (fun n => -(n : ℤ))
    else if c = '+' then (parseDigits? rest).map (fun n => (n : ℤ))
    else (parseDigits? (c :: rest)).map (fun n => (n : ℤ))

/-- Decimal digits of a natural number, most significant first, computed
with a fuel argument so the definition is structural. -/
def natReprAux : ℕ → ℕ → List Char → List Char
  | 0, _, acc => acc
  | fuel + 1, n, acc =>
    let acc := Nat.digitChar (n % 10) :: acc
    if n < 10 then acc else natReprAux fuel (n / 10) acc

/-- Decimal representation of a natural number. -/
def natRepr (n : ℕ) : List Char := natReprAux (n + 1) n []

/-- Python `str()` of an `int`: a minus sign followed by the digits for
negative values, just the digits otherwise. -/
def intRepr (i : ℤ) : List Char :=
  if i < 0 then '-' :: natRepr (-i).toNat else natRepr i.toNat

/-- Source `VoxCeleb1SID._build_label`:
`id_string = uid.split("/")[0]` and
`label = f"speaker_{int(id_string[2:]) - 10001}"`. The first component of
the identifier is everything before the first slash; dropping its first two
characters must parse as an integer, which is renumbered by `- 10001`. -/
def build_label (uid : List Char) : Option (List Char) :=
  match parseInt? ((uid.takeWhile (fun c => c ≠ '/')).drop 2) with
  | some i => some (("speaker_").toList ++ intRepr (i - 10001))
  | none => none

/-- Source `find_wav_with_uid` inside `VoxCeleb1SID._find_wavs_with_uids`:
given the filesystem's glob results for each identifier (the external
filesystem is a parameter), assert that exactly one wav matches and return
the pair; the surrounding `_find_wavs_with_uids` maps this over all
identifiers, and any assertion failure aborts the whole construction, so no
partial mapping is ever produced. -/
def find_wavs_with_uids (glob : List Char → List (List Char))
    (uids : List (List Char)) : Option (List (List Char × List Char)) :=
  mapOption (fun uid =>
    match glob uid with
    | [w] => some (uid, w)
    | _ => none) uids

/-- Relation between two optional results: both raise, or both succeed with
related values. -/
def optRel {α β : Type _} (S : α → β → Prop) : Option α → Option β → Prop
  | none, none => True
  | some a, some b => S a b
  | _, _ => False

theorem mapOption_eq_none_of {α β : Type _} {f : α → Option β} {l : List α}
    {x : α} (hx : x ∈ l) (hfx : f x = none) : mapOption f l = none := by
  induction l with
  | nil => cases hx
  | cons a as ih =>
    rcases List.mem_cons.mp hx with h | h
    · subst h; simp [mapOption, hfx]
    · have has := ih h
      cases hfa : f a <;> simp [mapOption, hfa, has]

theorem exists_of_mapOption_eq_none {α β : Type _} {f : α → Option β}
    {l : List α} (h : mapOption f l = none) : ∃ x ∈ l, f x = none := by
  induction l with
  | nil => simp [mapOption] at h
  | cons a as ih =>
    cases hfa : f a with
    | none => exact ⟨a, List.mem_cons_self a as, hfa⟩
    | some y =>
      cases hfas : mapOption f as with
      | none =>
        obtain ⟨z, hz, hfz⟩ := ih hfas
        exact ⟨z, List.mem_cons_of_mem a hz, hfz⟩
      | some ys => simp [mapOption, hfa, hfas] at h

theorem mapOption_eq_none {α β : Type _} (f : α → Option β) (l : List α) :
    mapOption f l = none ↔ ∃ x ∈ l, f x = none := by
  constructor
  · exact exists_of_mapOption_eq_none
  · rintro ⟨x, hx, hfx⟩
    exact mapOption_eq_none_of hx hfx

theorem mapOption_eq_some_map {α β : Type _} (f : α → Option β) (g : α → β)
    (l : List α) (h : ∀ x ∈ l, f x = some (g x)) :
    mapOption f l = some (l.map g) := by
  induction l with
  | nil => simp [mapOption]
  | cons x xs ih =>
    have hx : f x = some (g x) := h x (List.mem_cons_self x xs)
    have hxs : mapOption f xs = some (xs.map g) :=
      ih (fun z hz => h z (List.mem_cons_of_mem x hz))
    simp [mapOption, hx, hxs]

theorem mapOption_forall₂ {α β : Type _} (f : α → Option β) (l : List α)
    (ys : List β) (h : mapOption f l = some ys) :
    List.Forall₂ (fun a y => f a = some y) l ys := by
  induction l generalizing ys with
  | nil =>
    simp [mapOption] at h
    subst h; exact List.Forall₂.nil
  | cons x xs ih =>
    simp only [mapOption] at h
    cases hx : f x with
    | none => rw [hx] at h; exact absurd h (by simp)
    | some y =>
      rw [hx] at h
      cases hxs : mapOption f xs with
      | none => rw [hxs] at h; exact absurd h (by simp)
      | some zs =>
        rw [hxs] at h
        simp only [Option.some.injEq] at h
        subst h
        exact List.Forall₂.cons hx (ih zs hxs)

theorem mapOption_length {α β : Type _} (f : α → Option β) (l : List α)
    (ys : List β) (h : mapOption f l = some ys) : ys.length = l.length :=
  ((mapOption_forall₂ f l ys h).length_eq).symm

theorem mapOption_isSome {α β : Type _} (f : α → Option β) (l : List α)
    (h : ∀ x ∈ l, (f x).isSome) : (mapOption f l).isSome := by
  induction l with
  | nil => simp [mapOption]
  | cons x xs ih =>
    have hx := h x (List.mem_cons_self x xs)
    have hxs := ih (fun z hz => h z (List.mem_cons_of_mem x hz))
    cases hfx : f x with
    | none => rw [hfx] at hx; exact absurd hx (by simp)
    | some y =>
      cases hfxs : mapOption f xs with
      | none => rw [hfxs] at hxs; exact absurd hxs (by simp)
      | some ys => simp [mapOption, hfx, hfxs]

theorem mapOption_congr_rel {α β : Type _} {R : α → α → Prop}
    (f : α → Option β) {l l' : List α} (hl : List.Forall₂ R l l')
    (hf : ∀ a b, R a b → f a = f b) : mapOption f l = mapOption f l' := by
  induction hl with
  | nil => rfl
  | cons hab _ ih => simp only [mapOption, hf _ _ hab, ih]

theorem mapOption_get {α β : Type _} (f : α → Option β) (l : List α)
    (ys : List β) (h : mapOption f l = some ys) (i : ℕ) (hi : i < l.length)
    (hi' : i < ys.length) : f (l.get ⟨i, hi⟩) = some (ys.get ⟨i, hi'⟩) := by
  induction l generalizing ys i with
  | nil => exact absurd hi (by simp)
  | cons x xs ih =>
    simp only [mapOption] at h
    cases hx : f x with
    | none => rw [hx] at h; exact absurd h (by simp)
    | some y =>
      rw [hx] at h
      cases hxs : mapOption f xs with
      | none => rw [hxs] at h; exact absurd h (by simp)
      | some zs =>
        rw [hxs] at h
        simp only [Option.some.injEq] at h
        subst h
        cases i with
        | zero => simpa using hx
        | succ j => exact ih zs hxs j (by simpa using hi) (by simpa using hi')

theorem optRel_trans {α : Type _} {S : α → α → Prop}
    (hS : ∀ a b c, S a b → S b c → S a c) {o₁ o₂ o₃ : Option α}
    (h₁ : optRel S o₁ o₂) (h₂ : optRel S o₂ o₃) : optRel S o₁ o₃ := by
  cases o₁ <;> cases o₂ <;> cases o₃ <;>
    first
      | trivial
      | exact h₁.elim
      | exact h₂.elim
      | exact hS _ _ _ h₁ h₂

theorem mapOption_cons_rel {α β : Type _} (f : α → Option β) (x : α)
    {l₁ l₂ : List α}
    (h : optRel List.Perm (mapOption f l₁) (mapOption f l₂)) :
    optRel List.Perm (mapOption f (x :: l₁)) (mapOption f (x :: l₂)) := by
  simp only [mapOption]
  cases hx : f x with
  | none => trivial
  | some y =>
    cases h₁ : mapOption f l₁ with
    | none =>
      cases h₂ : mapOption f l₂ with
      | none => trivial
      | some ys₂ => rw [h₁, h₂] at h; exact h.elim
    | some ys₁ =>
      cases h₂ : mapOption f l₂ with
      | none => rw [h₁, h₂] at h; exact h.elim
      | some ys₂ =>
        rw [h₁, h₂] at h
        exact List.Perm.cons y h

theorem mapOption_perm {α β : Type _} (f : α → Option β) {l l' : List α}
    (h : l.Perm l') : optRel List.Perm (mapOption f l) (mapOption f l') := by
  induction h with
  | nil => exact List.Perm.nil
  | cons x _ ih => exact mapOption_cons_rel f x ih
  | swap x y l =>
    simp only [mapOption]
    cases hx : f x with
    | none => cases hy : f y <;> cases hl : mapOption f l <;> trivial
    | some a =>
      cases hy : f y with
      | none => cases hl : mapOption f l <;> trivial
      | some b =>
        cases hl : mapOption f l with
        | none => trivial
        | some ys => exact List.Perm.swap a b ys
  | trans _ _ ih₁ ih₂ =>
    exact optRel_trans (fun a b c hab hbc => hab.trans hbc) ih₁ ih₂

theorem zipWith_add_left_comm (a b c : List ℝ) :
    List.zipWith (fun x y => x + y) a (List.zipWith (fun x y => x + y) b c)
      = List.zipWith (fun x y => x + y) b (List.zipWith (fun x y => x + y) a c) := by
  induction a generalizing b c with
  | nil => cases b <;> cases c <;> simp
  | cons x xs ih =>
    cases b with
    | nil => simp
    | cons y ys =>
      cases c with
      | nil => simp
      | cons z zs =>
        simp only [List.zipWith_cons_cons, List.cons.injEq]
        exact ⟨add_left_comm x y z, ih ys zs⟩

theorem vecSum_cons (H : ℕ) (x : List ℝ) (l : List (List ℝ)) :
    vecSum H (x :: l) = List.zipWith (fun a b => a + b) x (vecSum H l) := rfl

theorem vecSum_perm (H : ℕ) {l l' : List (List ℝ)} (h : l.Perm l') :
    vecSum H l = vecSum H l' := by
  induction h with
  | nil => rfl
  | cons x _ ih => rw [vecSum_cons, vecSum_cons, ih]
  | swap x y l =>
    rw [vecSum_cons, vecSum_cons, vecSum_cons, vecSum_cons]
    exact zipWith_add_left_comm y x (vecSum H l)
  | trans _ _ ih₁ ih₂ => exact ih₁.trans ih₂

theorem zipWith_map_self {α β γ : Type _} (f : β → α → γ) (g : α → β)
    (l : List α) :
    List.zipWith f (l.map g) l = l.map (fun x => f (g x) x) := by
  induction l with
  | nil => rfl
  | cons x xs ih => simp [ih]

theorem mapOption_apply_eq_some {l : Linear1} {seq : List (List ℝ)}
    (h : ∀ x ∈ seq, x.length = l.weight.length) :
    mapOption l.apply seq = some (seq.map l.applyVal) :=
  mapOption_eq_some_map _ _ _ (fun x hx => by simp [Linear1.apply, h x hx])

theorem lengths_of_mapOption_apply {l : Linear1} {seq : List (List ℝ)}
    {ls : List ℝ} (h : mapOption l.apply seq = some ls) :
    ∀ x ∈ seq, x.length = l.weight.length := by
  intro x hx
  by_contra hlen
  have hfx : l.apply x = none := by simp [Linear1.apply, hlen]
  have : mapOption l.apply seq = none := mapOption_eq_none_of hx hfx
  rw [this] at h
  cases h

theorem pool_perm (p : SelfAttentionPooling) {seq seq' : List (List ℝ)}
    (h : seq.Perm seq') : p.pool seq = p.pool seq' := by
  cases hA : mapOption p.W.apply seq with
  | none =>
    obtain ⟨x, hx, hfx⟩ := exists_of_mapOption_eq_none hA
    have hA' : mapOption p.W.apply seq' = none :=
      mapOption_eq_none_of (h.mem_iff.mp hx) hfx
    simp [SelfAttentionPooling.pool, SelfAttentionPooling.attW, hA, hA']
  | some ls =>
    have hlen := lengths_of_mapOption_apply hA
    have hlen' : ∀ x ∈ seq', x.length = p.W.weight.length :=
      fun x hx => hlen x (h.mem_iff.mpr hx)
    have hA1 : mapOption p.W.apply seq = some (seq.map p.W.applyVal) :=
      mapOption_apply_eq_some hlen
    have hA2 : mapOption p.W.apply seq' = some (seq'.map p.W.applyVal) :=
      mapOption_apply_eq_some hlen'
    have hS : ((seq.map p.W.applyVal).map Real.exp).sum
        = ((seq'.map p.W.applyVal).map Real.exp).sum :=
      ((h.map p.W.applyVal).map Real.exp).sum_eq
    have e1 : ∀ s : List (List ℝ), softmaxList (s.map p.W.applyVal)
        = s.map (fun x => Real.exp (p.W.applyVal x)
            / ((s.map p.W.applyVal).map Real.exp).sum) := by
      intro s
      simp only [softmaxList, List.map_map]
      rfl
    simp only [SelfAttentionPooling.pool, SelfAttentionPooling.attW, hA1, hA2,
      Option.map_some']
    congr 1
    rw [e1 seq, e1 seq', ← hS, zipWith_map_self, zipWith_map_self]
    exact vecSum_perm _ (h.map _)

theorem meanScore_perm (lin : Linear1) {seq seq' : List (List ℝ)}
    (h : seq.Perm seq') : lin.meanScore seq = lin.meanScore seq' := by
  have hrel := mapOption_perm lin.apply h
  simp only [Linear1.meanScore]
  cases h1 : mapOption lin.apply seq with
  | none =>
    cases h2 : mapOption lin.apply seq' with
    | none => rfl
    | some ys' => rw [h1, h2] at hrel; exact hrel.elim
  | some ys =>
    cases h2 : mapOption lin.apply seq' with
    | none => rw [h1, h2] at hrel; exact hrel.elim
    | some ys' =>
      rw [h1, h2] at hrel
      simp only [Option.map_some']
      rw [hrel.sum_eq, hrel.length_eq]

theorem tanh_lt_one_real (x : ℝ) : Real.tanh x < 1 := by
  rw [Real.tanh_eq_sinh_div_cosh, div_lt_one (Real.cosh_pos x), Real.sinh_eq,
    Real.cosh_eq]
  have h1 := Real.exp_pos (-x)
  linarith

theorem neg_one_lt_tanh_real (x : ℝ) : -1 < Real.tanh x := by
  rw [Real.tanh_eq_sinh_div_cosh, lt_div_iff₀ (Real.cosh_pos x), Real.sinh_eq,
    Real.cosh_eq]
  have h1 := Real.exp_pos x
  linarith

theorem clip_bounds (s : ℝ) : 1 < clip s ∧ clip s < 5 := by
  have h1 := tanh_lt_one_real s
  have h2 := neg_one_lt_tanh_real s
  constructor <;> simp only [clip] <;> linarith

theorem sum_map_div (l : List ℝ) (f : ℝ → ℝ) (c : ℝ) :
    (l.map (fun x => f x / c)).sum = (l.map f).sum / c := by
  induction l with
  | nil => simp
  | cons a as ih => simp [ih, add_div]

theorem exp_sum_nonneg (l : List ℝ) : 0 ≤ (l.map Real.exp).sum := by
  apply List.sum_nonneg
  intro y hy
  obtain ⟨z, _, rfl⟩ := List.mem_map.mp hy
  exact (Real.exp_pos z).le

theorem softmaxList_nonneg (xs : List ℝ) : ∀ w ∈ softmaxList xs, 0 ≤ w := by
  intro w hw
  simp only [softmaxList, List.mem_map] at hw
  obtain ⟨x, _, rfl⟩ := hw
  exact div_nonneg (Real.exp_pos x).le (exp_sum_nonneg xs)

theorem softmaxList_sum (xs : List ℝ) (h : xs ≠ []) : (softmaxList xs).sum = 1 := by
  have hpos : 0 < (xs.map Real.exp).sum := by
    cases xs with
    | nil => exact absurd rfl h
    | cons a as =>
      simp only [List.map_cons, List.sum_cons]
      have h1 := Real.exp_pos a
      have h2 := exp_sum_nonneg as
      linarith
  simp only [softmaxList]
  rw [sum_map_div]
  exact div_self hpos.ne'

theorem mem_zipWith {α β γ : Type _} {f : α → β → γ} {z : γ} {as : List α}
    {bs : List β} (h : z ∈ List.zipWith f as bs) :
    ∃ a ∈ as, ∃ b ∈ bs, z = f a b := by
  induction as generalizing bs with
  | nil => simp at h
  | cons a as ih =>
    cases bs with
    | nil => simp at h
    | cons b bs =>
      simp only [List.zipWith_cons_cons, List.mem_cons] at h
      rcases h with h | h
      · exact ⟨a, by simp, b, by simp, h⟩
      · obtain ⟨a', ha, b', hb, rfl⟩ := ih h
        exact ⟨a', by simp [ha], b', by simp [hb], rfl⟩

theorem vecSum_length {H : ℕ} {l : List (List ℝ)} (h : ∀ v ∈ l, v.length = H) :
    (vecSum H l).length = H := by
  induction l with
  | nil => simp [vecSum]
  | cons v vs ih =>
    rw [vecSum_cons, List.length_zipWith, h v (by simp),
      ih (fun w hw => h w (by simp [hw]))]
    exact Nat.min_self H

theorem pool_isSome (p : SelfAttentionPooling) {seq : List (List ℝ)}
    (h : ∀ fr ∈ seq, fr.length = p.W.weight.length) :
    ∃ u, p.pool seq = some u ∧ u.length = p.W.weight.length := by
  have hA : mapOption p.W.apply seq = some (seq.map p.W.applyVal) :=
    mapOption_apply_eq_some h
  refine ⟨vecSum p.W.weight.length
      (List.zipWith (fun w x => x.map (fun v => w * v))
        (softmaxList (seq.map p.W.applyVal)) seq), ?_, ?_⟩
  · simp [SelfAttentionPooling.pool, SelfAttentionPooling.attW, hA]
  · apply vecSum_length
    intro v hv
    obtain ⟨w, _, x, hx, rfl⟩ := mem_zipWith hv
    simp [h x hx]

theorem mapOption_some_strong {α β : Type _} (f : α → Option β) (l : List α)
    (P : β → Prop) (h : ∀ x ∈ l, ∃ y, f x = some y ∧ P y) :
    ∃ ys, mapOption f l = some ys ∧ ys.length = l.length ∧ ∀ y ∈ ys, P y := by
  induction l with
  | nil => exact ⟨[], rfl, rfl, by simp⟩
  | cons a as ih =>
    obtain ⟨y, hy, hPy⟩ := h a (List.mem_cons_self a as)
    obtain ⟨ys, hys, hlen, hPs⟩ := ih (fun x hx => h x (List.mem_cons_of_mem a hx))
    refine ⟨y :: ys, by simp [mapOption, hy, hys], by simp [hlen], ?_⟩
    intro z hz
    rcases List.mem_cons.mp hz with rfl | hz
    · exact hPy
    · exact hPs z hz

theorem squeezeLast_numel (l : List ℝ) : (squeezeLast l).numel = l.length := by
  cases l with
  | nil => rfl
  | cons x xs => cases xs <;> rfl

theorem squeezeLast_pyLen_of_ne_one (l : List ℝ) (h : l.length ≠ 1) :
    (squeezeLast l).pyLen = some l.length := by
  cases l with
  | nil => rfl
  | cons x xs =>
    cases xs with
    | nil => exact absurd rfl h
    | cons y ys => rfl

theorem squeezeLast_pyLen_of_one (l : List ℝ) (h : l.length = 1) :
    (squeezeLast l).pyLen = none := by
  cases l with
  | nil => simp at h
  | cons x xs =>
    cases xs with
    | nil => rfl
    | cons y ys => simp at h

theorem vals_squeezeLast_map (g : ℝ → ℝ) (l : List ℝ) :
    (squeezeLast (l.map g)).vals = ((squeezeLast l).vals).map g := by
  cases l with
  | nil => rfl
  | cons x xs => cases xs <;> rfl

theorem forwardVals_clip_relation (m : Model) (f : List (List (List ℝ)))
    (hc : m.clipping = true) :
    Model.forwardVals m f
      = (Model.forwardVals { m with clipping := false } f).map clip := by
  cases hm : m.pooling with
  | some p =>
    cases hS : p.forward f with
    | none =>
      simp [Model.forwardVals, Model.forward, hm, hS]
    | some pooled =>
      cases hseg : mapOption m.linear.apply pooled with
      | none => simp [Model.forwardVals, Model.forward, hm, hS, hseg]
      | some seg =>
        simp [Model.forwardVals, Model.forward, hm, hS, hseg, hc, TOut.vals]
  | none =>
    cases hM : mapOption m.linear.meanScore f with
    | none => simp [Model.forwardVals, Model.forward, hm, hM]
    | some means =>
      simp only [Model.forwardVals, Model.forward, hm, hM, hc, if_true,
        Bool.false_eq_true, if_false, Option.elim]
      exact vals_squeezeLast_map clip means

theorem forward_perm_eq (m : Model) {f f' : List (List (List ℝ))}
    (hp : List.Forall₂ List.Perm f f') :
    Model.forward m f = Model.forward m f' := by
  cases hm : m.pooling with
  | some p =>
    have hS : p.forward f = p.forward f' :=
      mapOption_congr_rel _ hp (fun a b hab => pool_perm p hab)
    simp only [Model.forward, SelfAttentionPooling.forward] at hS ⊢
    simp only [hm, hS]
  | none =>
    have hM : mapOption m.linear.meanScore f = mapOption m.linear.meanScore f' :=
      mapOption_congr_rel _ hp (fun a b hab => meanScore_perm m.linear hab)
    simp only [Model.forward, hm, hM]

/-- Fixture: a mean-pooling `Model` over hidden dimension 1 with unit
weight, zero bias and no clipping. -/
noncomputable def mMean : Model :=
  { linear := { weight := [(1 : ℝ)], bias := 0 }, clipping := false,
    pooling := none }

/-- Fixture: `mMean` with clipping enabled. -/
noncomputable def mMeanClip : Model :=
  { linear := { weight := [(1 : ℝ)], bias := 0 }, clipping := true,
    pooling := none }

/-- Fixture: an attention-pooling submodule over hidden dimension 1. -/
noncomputable def pAtt : SelfAttentionPooling :=
  { W := { weight := [(1 : ℝ)], bias := 0 } }

/-- Fixture: an attention-pooling `Model` over hidden dimension 1. -/
noncomputable def mAtt : Model :=
  { linear := { weight := [(1 : ℝ)], bias := 0 }, clipping := false,
    pooling := some pAtt }

/-- Fixture: a batch with two sequences of one 1-dimensional frame each. -/
noncomputable def fTwo : List (List (List ℝ)) := [[[0]], [[0]]]

/-- C1, counterexample to the claim as stated: at batch size N = 1 under
mean pooling, the trailing `squeeze(-1)` collapses the `(1,)` result to a
0-dimensional scalar tensor, so the output has no length at all (python
`len()` raises), even though the batch has length 1. -/
theorem C1_cex :
    Option.map TOut.pyLen (Model.forward mMean [[[(0 : ℝ)]]]) = some none
      ∧ ([[[(0 : ℝ)]]] : List (List (List ℝ))).length = 1 :=
  ⟨rfl, rfl⟩

/-- C1 (amended): for every valid `(N, T, H)` input, `Model.forward`
returns exactly N scalar values (the element count of the output equals
the batch size) under both pooling policies; the output is a length-N
vector in every case except mean pooling with N = 1, where the trailing
squeeze yields a 0-dimensional scalar holding the single value. -/
theorem C1_output_count (m : Model) (f : List (List (List ℝ)))
    (hH : ∀ seq ∈ f, ∀ fr ∈ seq, fr.length = m.linear.weight.length)
    (hw : ∀ p, m.pooling = some p → p.W.weight.length = m.linear.weight.length)
    (hN : 0 < f.length) (hT : ∀ seq ∈ f, 0 < seq.length) :
    ∃ out, Model.forward m f = some out ∧ TOut.numel out = f.length ∧
      (TOut.pyLen out = some f.length ∨
        (m.pooling = none ∧ f.length = 1 ∧ TOut.pyLen out = none)) := by
  cases hm : m.pooling with
  | some p =>
    have hwp := hw p hm
    have hpool : ∀ seq ∈ f, ∃ u, p.pool seq = some u
        ∧ u.length = p.W.weight.length :=
      fun seq hseq => pool_isSome p (fun fr hfr => (hH seq hseq fr hfr).trans hwp.symm)
    obtain ⟨pooled, hpooled, hplen, hPlen⟩ :=
      mapOption_some_strong p.pool f _ hpool
    have hseg : ∀ u ∈ pooled, ∃ y, m.linear.apply u = some y ∧ True :=
      fun u hu => ⟨m.linear.applyVal u,
        by simp [Linear1.apply, (hPlen u hu).trans hwp], trivial⟩
    obtain ⟨seg, hsegs, hslen, -⟩ :=
      mapOption_some_strong m.linear.apply pooled _ hseg
    refine ⟨TOut.vector (if m.clipping then seg.map clip else seg), ?_, ?_, ?_⟩
    · simp [Model.forward, hm, SelfAttentionPooling.forward, hpooled, hsegs]
    · cases hc : m.clipping <;>
        simp [TOut.numel, hc, hslen.trans hplen]
    · left
      cases hc : m.clipping <;>
        simp [TOut.pyLen, hc, hslen.trans hplen]
  | none =>
    have hrow : ∀ seq ∈ f, ∃ r, m.linear.meanScore seq = some r ∧ True := by
      intro seq hseq
      have hA : mapOption m.linear.apply seq = some (seq.map m.linear.applyVal) :=
        mapOption_apply_eq_some (hH seq hseq)
      exact ⟨(seq.map m.linear.applyVal).sum / ((seq.map m.linear.applyVal).length : ℝ),
        by simp [Linear1.meanScore, hA], trivial⟩
    obtain ⟨means, hmeans, hmlen, -⟩ :=
      mapOption_some_strong m.linear.meanScore f _ hrow
    have hmsl : (if m.clipping then means.map clip else means).length = f.length := by
      cases hc : m.clipping <;> simp [hc, hmlen]
    refine ⟨squeezeLast (if m.clipping then means.map clip else means), ?_, ?_, ?_⟩
    · simp [Model.forward, hm, hmeans]
    · rw [squeezeLast_numel, hmsl]
    · by_cases h1 : f.length = 1
      · exact Or.inr ⟨rfl, h1, squeezeLast_pyLen_of_one _ (by rw [hmsl, h1])⟩
      · left
        rw [squeezeLast_pyLen_of_ne_one _ (by rw [hmsl]; exact h1), hmsl]

/-- C1, witness: the amended theorem applied to a concrete two-element
batch under mean pooling. -/
theorem C1_witness :
    0 < fTwo.length ∧
    (∃ out, Model.forward mMean fTwo = some out ∧ TOut.numel out = fTwo.length ∧
      (TOut.pyLen out = some fTwo.length ∨
        (mMean.pooling = none ∧ fTwo.length = 1 ∧ TOut.pyLen out = none))) :=
  ⟨by decide,
    C1_output_count mMean fTwo (by decide)
      (fun p h => Option.noConfusion h) (by decide) (by decide)⟩

/-- C2: with clipping enabled, every output score equals
`tanh(raw_score) * 2 + 3` for the raw score the selected pooling policy
produces at the same position (clipping commutes with everything after the
raw scores), and consequently every output value lies strictly inside the
open interval (1, 5), for every input batch and both pooling policies. -/
theorem C2_clipping_range (m : Model) (f : List (List (List ℝ)))
    (hc : m.clipping = true) :
    Model.forwardVals m f
        = (Model.forwardVals { m with clipping := false } f).map clip
      ∧ ∀ y ∈ Model.forwardVals m f, 1 < y ∧ y < 5 := by
  have hrel := forwardVals_clip_relation m f hc
  refine ⟨hrel, ?_⟩
  intro y hy
  rw [hrel] at hy
  obtain ⟨r, -, rfl⟩ := List.mem_map.mp hy
  exact clip_bounds r

/-- C2, witness: the theorem applied to a concrete one-frame batch under
the clipping mean-pooling model. -/
theorem C2_witness :
    mMeanClip.clipping = true ∧
    (Model.forwardVals mMeanClip fTwo
        = (Model.forwardVals { mMeanClip with clipping := false } fTwo).map clip
      ∧ ∀ y ∈ Model.forwardVals mMeanClip fTwo, 1 < y ∧ y < 5) :=
  ⟨rfl, C2_clipping_range mMeanClip fTwo rfl⟩

/-- C5: the mean-pooling score is invariant under any permutation of the
frames of each sequence: permuting every sequence of the batch (each by its
own permutation) leaves `Model.forward` unchanged. -/
theorem C5_mean_perm_invariant (m : Model) (f f' : List (List (List ℝ)))
    (hm : m.pooling = none) (hp : List.Forall₂ List.Perm f f') :
    Model.forward m f = Model.forward m f' :=
  forward_perm_eq m hp

/-- C5, witness: swapping the two frames of a concrete sequence leaves the
mean-pooling forward output unchanged. -/
theorem C5_witness :
    List.Forall₂ List.Perm [[[(0 : ℝ)], [1]]] [[[(1 : ℝ)], [0]]] ∧
    Model.forward mMean [[[(0 : ℝ)], [1]]] = Model.forward mMean [[[(1 : ℝ)], [0]]] :=
  ⟨List.Forall₂.cons (List.Perm.swap [(1 : ℝ)] [0] []) List.Forall₂.nil,
    C5_mean_perm_invariant mMean _ _ rfl
      (List.Forall₂.cons (List.Perm.swap [(1 : ℝ)] [0] []) List.Forall₂.nil)⟩

/-- C6, counterexample: the claim asserts some batch and some frame
permutation change the attention-pooling score, but no such batch exists —
permuting the frames permutes the content-derived logits identically, so
the softmax-weighted sum, and hence the score, is unchanged. -/
theorem C6_cex :
    ¬ ∃ (m : Model) (p : SelfAttentionPooling) (f f' : List (List (List ℝ))),
      m.pooling = some p ∧ List.Forall₂ List.Perm f f' ∧
        Model.forward m f ≠ Model.forward m f' := by
  rintro ⟨m, p, f, f', -, hp, hne⟩
  exact hne (forward_perm_eq m hp)

/-- C6 (amended): the attention-pooling score IS invariant under
permutation of the sequence-length axis: the attention weights are
recomputed from the permuted content, so weight–frame pairs move together
and the weighted sum is unchanged. (The weighting is content-dependent,
but that shows up only when weights and frames are mismatched, not under a
joint permutation of the batch's frames.) -/
theorem C6_att_perm_invariant (m : Model) (p : SelfAttentionPooling)
    (f f' : List (List (List ℝ))) (hm : m.pooling = some p)
    (hp : List.Forall₂ List.Perm f f') :
    Model.forward m f = Model.forward m f' :=
  forward_perm_eq m hp

/-- C6, witness: swapping the two frames of a concrete sequence leaves the
attention-pooling forward output unchanged. -/
theorem C6_witness :
    mAtt.pooling = some pAtt ∧
    Model.forward mAtt [[[(0 : ℝ)], [1]]] = Model.forward mAtt [[[(1 : ℝ)], [0]]] :=
  ⟨rfl,
    C6_att_perm_invariant mAtt pAtt _ _ rfl
      (List.Forall₂.cons (List.Perm.swap [(1 : ℝ)] [0] []) List.Forall₂.nil)⟩

/-- C7: under attention pooling the attention weights of every batch
element are non-negative and sum to 1 over that element's sequence axis,
and the softmax normalisation is applied independently per batch element:
the weights computed for position i of a batch are exactly the weights
computed from that sequence alone. -/
theorem C7_softmax_weights (p : SelfAttentionPooling) (seq : List (List ℝ))
    (ws : List ℝ) (hne : seq ≠ []) (h : p.attW seq = some ws) :
    (∀ w ∈ ws, 0 ≤ w) ∧ ws.sum = 1 ∧
      (∀ (batch : List (List (List ℝ))) (wsAll : List (List ℝ)),
        mapOption p.attW batch = some wsAll →
        ∀ (i : ℕ) (hi : i < batch.length) (hi' : i < wsAll.length),
          p.attW (batch.get ⟨i, hi⟩) = some (wsAll.get ⟨i, hi'⟩)) := by
  obtain ⟨logits, hl, rfl⟩ : ∃ logits, mapOption p.W.apply seq = some logits
      ∧ ws = softmaxList logits := by
    cases hA : mapOption p.W.apply seq with
    | none => rw [SelfAttentionPooling.attW, hA] at h; cases h
    | some logits =>
      rw [SelfAttentionPooling.attW, hA] at h
      exact ⟨logits, rfl, (Option.some.injEq _ _).mp h.symm⟩
  have hlne : logits ≠ [] := by
    intro hnil
    have := mapOption_length _ _ _ hl
    rw [hnil] at this
    exact hne (List.eq_nil_of_length_eq_zero this.symm)
  exact ⟨softmaxList_nonneg logits, softmaxList_sum logits hlne,
    fun batch wsAll hb i hi hi' => mapOption_get _ _ _ hb i hi hi'⟩

/-- C7, witness: the theorem applied to the concrete one-frame sequence
`[[0]]` under the fixture attention module. -/
theorem C7_witness :
    ([[(0 : ℝ)]] : List (List ℝ)) ≠ [] ∧
    ((∀ w ∈ softmaxList [Linear1.applyVal { weight := [(1 : ℝ)], bias := 0 } [0]],
        0 ≤ w) ∧
      (softmaxList [Linear1.applyVal { weight := [(1 : ℝ)], bias := 0 } [0]]).sum = 1 ∧
      (∀ (batch : List (List (List ℝ))) (wsAll : List (List ℝ)),
        mapOption pAtt.attW batch = some wsAll →
        ∀ (i : ℕ) (hi : i < batch.length) (hi' : i < wsAll.length),
          pAtt.attW (batch.get ⟨i, hi⟩) = some (wsAll.get ⟨i, hi'⟩))) :=
  ⟨by simp,
    C7_softmax_weights pAtt [[(0 : ℝ)]]
      (softmaxList [Linear1.applyVal { weight := [(1 : ℝ)], bias := 0 } [0]])
      (by simp) rfl⟩

/-- C9, counterexample to the claim as stated: a batch whose single
sequence has an empty sequence dimension (T = 0) does not make
`Model.forward` raise; the forward call returns a value. -/
theorem C9_cex :
    (Model.forward mMean [([] : List (List ℝ))]).isSome = true := rfl

/-- C9 (amended): `Model.forward` performs no sequence-length validation
of its own. Under mean pooling the call raises a shape-mismatch error
exactly when some frame's hidden dimension differs from the linear layer's
`input_dim`; in particular an input with an empty sequence dimension
(T = 0) and well-sized frames returns a value (in floating point, a NaN
mean) instead of failing fast. -/
theorem C9_shape_errors (m : Model) (f : List (List (List ℝ)))
    (hm : m.pooling = none) :
    Model.forward m f = none ↔
      ∃ seq ∈ f, ∃ fr ∈ seq, fr.length ≠ m.linear.weight.length := by
  have key : ∀ seq : List (List ℝ), (m.linear.meanScore seq = none ↔
      ∃ fr ∈ seq, fr.length ≠ m.linear.weight.length) := by
    intro seq
    rw [Linear1.meanScore, Option.map_eq_none', mapOption_eq_none]
    constructor
    · rintro ⟨fr, hfr, happ⟩
      refine ⟨fr, hfr, ?_⟩
      intro hEq
      simp only [Linear1.apply, if_pos hEq] at happ
      cases happ
    · rintro ⟨fr, hfr, hlen⟩
      exact ⟨fr, hfr, by simp [Linear1.apply, hlen]⟩
  cases hM : mapOption m.linear.meanScore f with
  | none =>
    simp only [Model.forward, hm, hM]
    obtain ⟨seq, hseq, hnone⟩ := exists_of_mapOption_eq_none hM
    obtain ⟨fr, hfr, hlen⟩ := (key seq).mp hnone
    simp only [true_iff]
    exact ⟨seq, hseq, fr, hfr, hlen⟩
  | some means =>
    simp only [Model.forward, hm, hM]
    constructor
    · intro hcontra; cases hcontra
    · rintro ⟨seq, hseq, fr, hfr, hlen⟩
      have : m.linear.meanScore seq = none := (key seq).mpr ⟨fr, hfr, hlen⟩
      have := mapOption_eq_none_of hseq this
      rw [this] at hM
      cases hM

/-- C9, witness: the amended characterisation applied to the concrete
batch `[[]]` with T = 0 — there is no ill-sized frame, so the right-hand
side is false and the forward call returns a value. -/
theorem C9_witness :
    mMean.pooling = none ∧
    (Model.forward mMean [([] : List (List ℝ))] = none ↔
      ∃ seq ∈ [([] : List (List ℝ))], ∃ fr ∈ seq,
        fr.length ≠ mMean.linear.weight.length) :=
  ⟨rfl, C9_shape_errors mMean [([] : List (List ℝ))] rfl⟩

theorem parseInt?_of_digits {ds : List Char} {n : ℕ}
    (h : parseDigits? ds = some n) : parseInt? ds = some (n : ℤ) := by
  cases ds with
  | nil => simp [parseDigits?] at h
  | cons c cs =>
    have hall : (c :: cs).all Char.isDigit := by
      by_contra hna
      simp [parseDigits?, hna] at h
    have hc : c.isDigit := by
      have := List.all_eq_true.mp hall c (List.mem_cons_self c cs)
      simpa using this
    have hcm : c ≠ '-' := by
      intro hEq
      rw [hEq] at hc
      simp [Char.isDigit] at hc
    have hcp : c ≠ '+' := by
      intro hEq
      rw [hEq] at hc
      simp [Char.isDigit] at hc
    simp [parseInt?, if_neg hcm, if_neg hcp, h]

/-- C3: whenever the leading path component of the identifier is the
string `id` followed by decimal digits parsing to n, the derived label is
`speaker_` followed by the decimal representation of n - 10001; in
particular prefix `id10001` yields `speaker_0` and prefix `id10050` yields
`speaker_49`. -/
theorem C3_label_derivation (uid ds : List Char) (n : ℕ)
    (h1 : uid.takeWhile (fun c => c ≠ '/') = 'i' :: 'd' :: ds)
    (h2 : parseDigits? ds = some n) :
    build_label uid = some (("speaker_").toList ++ intRepr ((n : ℤ) - 10001))
      ∧ build_label (("id10001/a/b.wav").toList) = some (("speaker_0").toList)
      ∧ build_label (("id10050/a/b.wav").toList) = some (("speaker_49").toList) := by
  refine ⟨?_, by decide, by decide⟩
  have hdrop : (uid.takeWhile (fun c => c ≠ '/')).drop 2 = ds := by
    rw [h1]
    rfl
  simp only [build_label, hdrop, parseInt?_of_digits h2]

/-- C3, witness: the theorem applied to the concrete identifier
`id10050/abc/001.wav`. -/
theorem C3_witness :
    parseDigits? (("10050").toList) = some 10050 ∧
    (build_label (("id10050/abc/001.wav").toList)
        = some (("speaker_").toList ++ intRepr ((10050 : ℤ) - 10001))
      ∧ build_label (("id10001/a/b.wav").toList) = some (("speaker_0").toList)
      ∧ build_label (("id10050/a/b.wav").toList) = some (("speaker_49").toList)) :=
  ⟨by decide,
    C3_label_derivation (("id10050/abc/001.wav").toList) (("10050").toList) 10050
      (by decide) (by decide)⟩

theorem find_wavs_keys {glob : List Char → List (List Char)} :
    ∀ {uids : List (List Char)} {m : List (List Char × List Char)},
      find_wavs_with_uids glob uids = some m → m.map Prod.fst = uids := by
  intro uids
  induction uids with
  | nil =>
    intro m h
    simp only [find_wavs_with_uids, mapOption, Option.some.injEq] at h
    rw [← h]
    rfl
  | cons u us ih =>
    intro m h
    simp only [find_wavs_with_uids, mapOption] at h
    cases hg : glob u with
    | nil => rw [hg] at h; cases h
    | cons w ws =>
      cases ws with
      | cons v vs => rw [hg] at h; cases h
      | nil =>
        rw [hg] at h
        cases hrest : mapOption (fun uid =>
            (match glob uid with
              | [w] => some (uid, w)
              | _ => none : Option (List Char × List Char))) us with
        | none => rw [hrest] at h; cases h
        | some ms =>
          rw [hrest] at h
          simp only [Option.some.injEq] at h
          subst h
          have := ih (m := ms) hrest
          simp [this]

/-- C8: during wav search, construction succeeds exactly when the file
search finds exactly one wav per identifier: if any identifier has zero or
several matches the whole search fails (no partial mapping is returned),
and on success the mapping covers precisely the requested identifiers in
order. -/
theorem C8_unique_wav_match (glob : List Char → List (List Char))
    (uids : List (List Char)) :
    (find_wavs_with_uids glob uids = none ↔
        ∃ uid ∈ uids, (glob uid).length ≠ 1)
      ∧ ∀ m, find_wavs_with_uids glob uids = some m → m.map Prod.fst = uids := by
  constructor
  · rw [find_wavs_with_uids, mapOption_eq_none]
    refine exists_congr fun uid => and_congr_right fun _ => ?_
    cases hg : glob uid with
    | nil => simp
    | cons w ws =>
      cases ws with
      | nil => simp
      | cons v vs =>
        simp only [List.length_cons]
        constructor
        · intro _; omega
        · intro _; trivial
  · intro m h
    exact find_wavs_keys h

theorem get?_three_eq_none (a b c : String) (k : ℕ) :
    List.get? [a, b, c] k = none ↔ 3 ≤ k := by
  match k with
  | 0 => simp
  | 1 => simp
  | 2 => simp
  | k + 3 =>
    simp only [List.get?]
    constructor
    · intro _; omega
    · intro _; trivial

/-- C10, counterexample to the claim as stated: the claim says only codes
4 and above raise an IndexError, but the negative code -3 (index -4) also
raises. -/
theorem C10_cex : code2split (-3) = none ∧ ¬ (4 ≤ (-3 : ℤ)) := by decide

/-- C10 (amended): `code2split` is not guarded against out-of-range codes:
code 0 silently maps to `test`, -1 to `valid` and -2 to `train` via python
negative indexing — so a malformed manifest line with code 0 is silently
assigned to the test split — and an IndexError is raised exactly for codes
4 and above or -3 and below. -/
theorem C10_unguarded_codes :
    code2split 0 = some ("test") ∧ code2split (-1) = some ("valid")
      ∧ code2split (-2) = some ("train")
      ∧ ∀ c : ℤ, code2split c = none ↔ 4 ≤ c ∨ c ≤ -3 := by
  refine ⟨by decide, by decide, by decide, ?_⟩
  intro c
  simp only [code2split, pythonIdx, splitsList, List.length_cons,
    List.length_nil]
  by_cases h1 : 0 ≤ c - 1
  · rw [if_pos h1, get?_three_eq_none]
    omega
  · rw [if_neg h1]
    by_cases h2 : 0 ≤ c - 1 + (0 + 1 + 1 + 1 : ℕ)
    · rw [if_pos h2, get?_three_eq_none]
      omega
    · rw [if_neg h2]
      exact iff_of_true rfl (Or.inr (by omega))

theorem split2uids_cons_eq {p : List Char × String} {ps : List (List Char × String)}
    {s : String} (hs : p.2 = s) :
    split2uids (p :: ps) s = stemTransform p.1 :: split2uids ps s := by
  simp [split2uids, List.filter_cons, hs]

theorem split2uids_cons_ne {p : List Char × String} {ps : List (List Char × String)}
    {s : String} (hs : p.2 ≠ s) :
    split2uids (p :: ps) s = split2uids ps s := by
  simp [split2uids, List.filter_cons, hs]

theorem split2uids_perm (u2s : List (List Char × String))
    (h : ∀ p ∈ u2s, p.2 = "train" ∨ p.2 = "valid" ∨ p.2 = "test") :
    (split2uids u2s ("train") ++ split2uids u2s ("valid")
        ++ split2uids u2s ("test")).Perm
      (u2s.map (fun p => stemTransform p.1)) := by
  induction u2s with
  | nil => simp [split2uids]
  | cons p ps ih =>
    have ihs := ih (fun q hq => h q (List.mem_cons_of_mem _ hq))
    rcases h p (List.mem_cons_self p ps) with hp | hp | hp
    · rw [split2uids_cons_eq hp, split2uids_cons_ne (by rw [hp]; decide),
        split2uids_cons_ne (by rw [hp]; decide), List.map_cons]
      simp only [List.cons_append]
      exact List.Perm.cons _ ihs
    · rw [split2uids_cons_ne (by rw [hp]; decide), split2uids_cons_eq hp,
        split2uids_cons_ne (by rw [hp]; decide), List.map_cons]
      rw [List.append_assoc]
      simp only [List.cons_append]
      refine List.Perm.trans List.perm_middle (List.Perm.cons _ ?_)
      rw [← List.append_assoc]
      exact ihs
    · rw [split2uids_cons_ne (by rw [hp]; decide),
        split2uids_cons_ne (by rw [hp]; decide), split2uids_cons_eq hp,
        List.map_cons]
      exact List.Perm.trans List.perm_middle (List.Perm.cons _ ihs)

/-- C4, counterexample to the claim as stated: a manifest meeting the
claim's premise (distinct identifiers, codes in {1,2,3}) whose two
identifiers `a/b.wav` and `a/b.mp4` collapse to the same stored identifier
`a-b` after the stem transform, which therefore appears in both the train
and the test lists — the split sets are neither pairwise disjoint nor equal
to the manifest's raw identifiers. -/
theorem C4_cex :
    mkUid2split [(("a/b.wav").toList, (1 : ℤ)), (("a/b.mp4").toList, 3)]
        = some [(("a/b.wav").toList, "train"), (("a/b.mp4").toList, "test")]
      ∧ ([(("a/b.wav").toList, (1 : ℤ)), (("a/b.mp4").toList, 3)].map
          Prod.fst).Nodup
      ∧ (∀ p ∈ [(("a/b.wav").toList, (1 : ℤ)), (("a/b.mp4").toList, 3)],
          p.2 = 1 ∨ p.2 = 2 ∨ p.2 = 3)
      ∧ ("a-b").toList ∈ split2uids
          [(("a/b.wav").toList, "train"), (("a/b.mp4").toList, "test")] ("train")
      ∧ ("a-b").toList ∈ split2uids
          [(("a/b.wav").toList, "train"), (("a/b.mp4").toList, "test")] ("test") := by
  refine ⟨by decide, by decide, ?_, by decide, by decide⟩
  intro p hp
  rcases List.mem_cons.mp hp with rfl | hp
  · exact Or.inl rfl
  · rcases List.mem_cons.mp hp with rfl | hp
    · exact Or.inr (Or.inr rfl)
    · cases hp

/-- C4 (amended): for a manifest with distinct identifiers and codes in
{1,2,3}, index construction succeeds and the concatenation of the train,
valid and test identifier lists is a permutation of the stem-transformed
manifest identifiers — every manifest entry contributes exactly one split
membership, carrying the derived (stemmed) identifier rather than the raw
one. When the stem transform is additionally injective on the manifest
(no two identifiers share a stem), the three lists are pairwise
disjoint. -/
theorem C4_split_partition (manifest : List (List Char × ℤ))
    (hkeys : (manifest.map Prod.fst).Nodup)
    (hcode : ∀ p ∈ manifest, p.2 = 1 ∨ p.2 = 2 ∨ p.2 = 3) :
    ∃ u2s, mkUid2split manifest = some u2s ∧
      (split2uids u2s ("train") ++ split2uids u2s ("valid")
          ++ split2uids u2s ("test")).Perm
        (manifest.map (fun p => stemTransform p.1)) ∧
      ((manifest.map (fun p => stemTransform p.1)).Nodup →
        (∀ x ∈ split2uids u2s ("train"),
            x ∉ split2uids u2s ("valid") ∧ x ∉ split2uids u2s ("test")) ∧
        ∀ x ∈ split2uids u2s ("valid"), x ∉ split2uids u2s ("test")) := by
  have hmk : mkUid2split manifest
      = some (manifest.map (fun p => (p.1, (code2split p.2).getD ("train")))) := by
    apply mapOption_eq_some_map
    intro p hp
    rcases hcode p hp with hc | hc | hc <;> rw [hc] <;> rfl
  set u2s := manifest.map (fun p => (p.1, (code2split p.2).getD ("train"))) with hu
  have hsplits : ∀ q ∈ u2s, q.2 = "train" ∨ q.2 = "valid" ∨ q.2 = "test" := by
    intro q hq
    rw [hu] at hq
    obtain ⟨p, hp, rfl⟩ := List.mem_map.mp hq
    rcases hcode p hp with hc | hc | hc <;> rw [hc] <;> simp [code2split] <;> decide
  have hstem : u2s.map (fun p => stemTransform p.1)
      = manifest.map (fun p => stemTransform p.1) := by
    rw [hu, List.map_map]
    rfl
  have hperm := split2uids_perm u2s hsplits
  rw [hstem] at hperm
  refine ⟨u2s, hmk, hperm, ?_⟩
  intro hnd
  have hnd3 : (split2uids u2s ("train") ++ split2uids u2s ("valid")
      ++ split2uids u2s ("test")).Nodup := (hperm.nodup_iff).mpr hnd
  rw [List.append_assoc] at hnd3
  rw [List.nodup_append] at hnd3
  obtain ⟨hT, hVE, hdTVE⟩ := hnd3
  rw [List.nodup_append] at hVE
  obtain ⟨hV, hE, hdVE⟩ := hVE
  constructor
  · intro x hx
    constructor
    · intro hxV
      exact hdTVE hx (List.mem_append_left _ hxV)
    · intro hxE
      exact hdTVE hx (List.mem_append_right _ hxE)
  · intro x hx hxE
    exact hdVE hx hxE

/-- C4, witness: the amended theorem applied to a concrete two-entry
manifest with codes 1 and 2. -/
theorem C4_witness :
    ([(("id1/x.wav").toList, (1 : ℤ)), (("id2/y.wav").toList, 2)].map
        Prod.fst).Nodup ∧
    (∃ u2s, mkUid2split [(("id1/x.wav").toList, (1 : ℤ)),
        (("id2/y.wav").toList, 2)] = some u2s ∧
      (split2uids u2s ("train") ++ split2uids u2s ("valid")
          ++ split2uids u2s ("test")).Perm
        ([(("id1/x.wav").toList, (1 : ℤ)), (("id2/y.wav").toList, 2)].map
          (fun p => stemTransform p.1)) ∧
      (([(("id1/x.wav").toList, (1 : ℤ)), (("id2/y.wav").toList, 2)].map
          (fun p => stemTransform p.1)).Nodup →
        (∀ x ∈ split2uids u2s ("train"),
            x ∉ split2uids u2s ("valid") ∧ x ∉ split2uids u2s ("test")) ∧
        ∀ x ∈ split2uids u2s ("valid"), x ∉ split2uids u2s ("test"))) :=
  ⟨by decide,
    C4_split_partition [(("id1/x.wav").toList, (1 : ℤ)), (("id2/y.wav").toList, 2)]
      (by decide)
      (by
        intro p hp
        rcases List.mem_cons.mp hp with rfl | hp
        · exact Or.inl rfl
        · rcases List.mem_cons.mp hp with rfl | hp
          · exact Or.inr (Or.inl rfl)
          · cases hp)⟩

/-- C8, witness: the characterisation applied to a concrete one-element
filesystem where the single identifier matches exactly one wav. -/
theorem C8_witness :
    (find_wavs_with_uids (fun _ => [("w.wav").toList]) [("u1").toList] = none ↔
        ∃ uid ∈ [("u1").toList],
          (((fun _ => [("w.wav").toList]) : List Char → List (List Char)) uid).length ≠ 1)
      ∧ ∀ m, find_wavs_with_uids (fun _ => [("w.wav").toList]) [("u1").toList]
          = some m → m.map Prod.fst = [("u1").toList] :=
  C8_unique_wav_match (fun _ => [("w.wav").toList]) [("u1").toList]

/-- C10, witness: the error characterisation instantiated at the concrete
out-of-range code 5. -/
theorem C10_witness : code2split 5 = none ↔ 4 ≤ (5 : ℤ) ∨ (5 : ℤ) ≤ -3 :=
  C10_unguarded_codes.2.2.2 5
